import Mathlib

/-!
Verification of the pyquickcheck property-testing engine.

This file gives a shallow embedding, in Lean 4, of the core algorithms of the
pyquickcheck repository and proves the specified properties about them:

* `roundrobin`             — fair interleaving of finitely many finite streams
                             (src/quickcheck.py, `roundrobin`, the George Sakkis
                             recipe; on finite streams it yields one element of
                             each non-exhausted stream per round, preserving
                             stream order);
* `shrinkInt` and friends  — the integer shrink algorithm
                             (src/quickcheck/implementations.py, `shrink_int`,
                             which halves toward zero with `math.trunc(i / 2)`,
                             and the older floor-division variant
                             `i // 2` of src/quickcheck.py);
* `Value` / `shrinkValue`  — the shrink dispatch over the built-in value types
                             (int, float, bool, str, bytes, list, tuple), with
                             `shrink_sequence` for lists / str / bytes and the
                             separate `shrink_tuple`;
* `SingleDispatchGeneric`  — the registry of src/quickcheck/generic.py;
* `SProg` / `runS`         — the thread-local size context of
                             src/quickcheck/interface.py;
* `PyFloat` generation   — Float/Integer bounded generation of
                             src/quickcheck/implementations.py;
* `listMake`               — List spec construction checks;
* `qcLoop`                 — the trial loop of src/quickcheck/checker.py;
* `minimizeAux`            — `_quickcheck_minimize` of src/quickcheck/checker.py.

Numbers: Python ints are `ℤ`; Python floats are modelled as `ℚ` (the shrink and
bound-checking operations used here — negation, truncation, comparison — are
exact on floats, so `ℚ` is a faithful carrier); random draws from the
`distribution()` callable are passed in explicitly as a list of draws, and
`random.choice([-1, 1])` as an explicit Boolean.

Loops that are unbounded in Python (`while True:` rejection sampling, the
halving loop of `shrink_int`, the trial loop) are embedded with explicit fuel;
an `Option`/empty result encodes "still running when the fuel ran out", so a
theorem `... fuel ... = some _` is a genuine termination statement.
-/

/-! ### roundrobin (src/quickcheck.py lines 129-140)

`roundrobin('ABC', 'D', 'EF') --> A D E B F C`: each round takes the next
element of every not-yet-exhausted iterable, keeping their relative order.
`roundrobinAux` recurses round by round; the fuel of the wrapper,
`lensum ls` (the total number of elements), always suffices, since every
round with a non-empty active set consumes at least one element. -/

def roundrobinAux {α : Type} : ℕ → List (List α) → List α
  | 0, _ => []
  | fuel+1, ls =>
    let act := ls.filter fun l => !l.isEmpty
    if act.isEmpty then []
    else act.filterMap List.head? ++ roundrobinAux fuel (act.map List.tail)

def lensum {α : Type} (ls : List (List α)) : ℕ := (ls.map List.length).sum

def roundrobin {α : Type} (ls : List (List α)) : List α :=
  roundrobinAux (lensum ls) ls

theorem lensum_filter_le {α : Type} (p : List α → Bool) (ls : List (List α)) :
    lensum (ls.filter p) ≤ lensum ls := by
  induction ls with
  | nil => simp [lensum]
  | cons l rest ih =>
    by_cases h : p l = true
    · simpa [lensum, List.filter_cons, h] using Nat.add_le_add_left ih l.length
    · simp only [lensum, List.filter_cons, h] at ih ⊢
      simp only [Bool.false_eq_true, if_false, List.map_cons, List.sum_cons]
      exact le_trans ih (Nat.le_add_left _ _)

theorem lensum_map_tail {α : Type} (ls : List (List α))
    (h : ∀ l ∈ ls, l.isEmpty = false) :
    lensum (ls.map List.tail) + ls.length = lensum ls := by
  induction ls with
  | nil => simp [lensum]
  | cons l rest ih =>
    have hl : l.isEmpty = false := h l (List.mem_cons_self _ _)
    have hrest := ih fun x hx => h x (List.mem_cons_of_mem _ hx)
    cases l with
    | nil => simp at hl
    | cons a t =>
      simp only [lensum, List.map_cons, List.sum_cons, List.length_cons,
        List.tail_cons] at hrest ⊢
      omega

theorem length_le_lensum {α : Type} {l : List α} {ls : List (List α)}
    (h : l ∈ ls) : l.length ≤ lensum ls :=
  List.single_le_sum (fun x _ => Nat.zero_le x) _ (List.mem_map_of_mem List.length h)

theorem mem_of_head? {α : Type} {l : List α} {x : α} (h : l.head? = some x) :
    x ∈ l := by
  cases l with
  | nil => simp at h
  | cons a t =>
    simp only [List.head?_cons, Option.some.injEq] at h
    exact h ▸ List.mem_cons_self _ _

theorem mem_of_mem_roundrobinAux {α : Type} {x : α} :
    ∀ (fuel : ℕ) (ls : List (List α)), x ∈ roundrobinAux fuel ls →
      ∃ l ∈ ls, x ∈ l := by
  intro fuel
  induction fuel with
  | zero => intro ls h; simp [roundrobinAux] at h
  | succ n ih =>
    intro ls h
    simp only [roundrobinAux] at h
    by_cases hact : (ls.filter fun l => !l.isEmpty).isEmpty
    · simp [hact] at h
    · rw [if_neg hact, List.mem_append] at h
      rcases h with h | h
      · rcases List.mem_filterMap.mp h with ⟨l, hl, hhead⟩
        exact ⟨l, (List.mem_filter.mp hl).1, mem_of_head? hhead⟩
      · rcases ih _ h with ⟨t, ht, hx⟩
        rcases List.mem_map.mp ht with ⟨l, hl, rfl⟩
        exact ⟨l, (List.mem_filter.mp hl).1, List.mem_of_mem_tail hx⟩

theorem mem_roundrobinAux_of_mem {α : Type} {x : α} :
    ∀ (fuel : ℕ) (ls : List (List α)) (l : List α), lensum ls ≤ fuel →
      l ∈ ls → x ∈ l → x ∈ roundrobinAux fuel ls := by
  intro fuel
  induction fuel with
  | zero =>
    intro ls l hfuel hl hx
    have h1 : l.length ≤ 0 := le_trans (length_le_lensum hl) hfuel
    have h2 : l = [] := List.eq_nil_of_length_eq_zero (Nat.le_zero.mp h1)
    simp [h2] at hx
  | succ n ih =>
    intro ls l hfuel hl hx
    have hne : l.isEmpty = false := by
      cases l with
      | nil => simp at hx
      | cons a t => simp
    have hlact : l ∈ ls.filter fun l => !l.isEmpty := by
      rw [List.mem_filter]; exact ⟨hl, by simp [hne]⟩
    have hact : ((ls.filter fun l => !l.isEmpty).isEmpty) = false := by
      cases h : (ls.filter fun l => !l.isEmpty) with
      | nil => rw [h] at hlact; simp at hlact
      | cons a t => simp [h]
    simp only [roundrobinAux, hact, Bool.false_eq_true, if_false, List.mem_append]
    cases l with
    | nil => simp at hx
    | cons a t =>
      rcases List.mem_cons.mp hx with heq | hxt
      · exact Or.inl (List.mem_filterMap.mpr ⟨a :: t, hlact, by simp [heq]⟩)
      · refine Or.inr (ih _ t ?_ ?_ hxt)
        · have hall : ∀ m ∈ ls.filter fun l => !l.isEmpty, m.isEmpty = false := by
            intro m hm
            have := (List.mem_filter.mp hm).2
            simpa using this
          have heq := lensum_map_tail _ hall
          have hle : lensum (ls.filter fun l => !l.isEmpty) ≤ lensum ls :=
            lensum_filter_le _ ls
          have hpos : 1 ≤ (ls.filter fun l => !l.isEmpty).length :=
            List.length_pos.mpr (List.ne_nil_of_mem hlact)
          omega
        · exact List.mem_map.mpr ⟨a :: t, hlact, rfl⟩

theorem mem_roundrobin {α : Type} {x : α} {ls : List (List α)} :
    x ∈ roundrobin ls ↔ ∃ l ∈ ls, x ∈ l := by
  constructor
  · exact fun h => mem_of_mem_roundrobinAux _ _ h
  · rintro ⟨l, hl, hx⟩
    exact mem_roundrobinAux_of_mem _ _ l le_rfl hl hx

/-! ### Integer shrink (src/quickcheck/implementations.py lines 167-180)

```` python
@shrink.register(int)
def shrink_int(v):
    if v < 0:
        yield -v
    if v != 0:
        yield 0
    i = v
    while True:
        i = math.trunc(i / 2)
        if abs(v - i) < abs(v):
            yield v - i
        else:
            break
````

`math.trunc(i / 2)` rounds toward zero, i.e. `Int.tdiv i 2`.  The monolithic
snapshot src/quickcheck.py lines 265-278 instead uses `i = i // 2`, Python
floor division, i.e. `Int.fdiv i 2`.  Both `while True` loops are embedded
with fuel; the `Option`-valued versions return `none` when the fuel is
exhausted with the loop still running, so `= some _` states termination. -/

def shrinkIntLoopAux (v : ℤ) : ℕ → ℤ → List ℤ
  | 0, _ => []
  | fuel+1, i =>
    let i2 := Int.tdiv i 2
    if (v - i2).natAbs < v.natAbs then (v - i2) :: shrinkIntLoopAux v fuel i2 else []

def shrinkIntLoop (v i : ℤ) : List ℤ := shrinkIntLoopAux v (i.natAbs + 1) i

def shrinkInt (v : ℤ) : List ℤ :=
  (if v < 0 then [-v] else []) ++ (if v ≠ 0 then [(0:ℤ)] else []) ++ shrinkIntLoop v v

def shrinkIntLoopFuel (v : ℤ) : ℕ → ℤ → Option (List ℤ)
  | 0, _ => none
  | fuel+1, i =>
    let i2 := Int.tdiv i 2
    if (v - i2).natAbs < v.natAbs then (shrinkIntLoopFuel v fuel i2).map fun l => (v - i2) :: l
    else some []

def shrinkIntLoopFloorFuel (v : ℤ) : ℕ → ℤ → Option (List ℤ)
  | 0, _ => none
  | fuel+1, i =>
    let i2 := Int.fdiv i 2
    if (v - i2).natAbs < v.natAbs then (shrinkIntLoopFloorFuel v fuel i2).map fun l => (v - i2) :: l
    else some []

theorem natAbs_tdiv_two_lt {i : ℤ} (h : i ≠ 0) :
    (Int.tdiv i 2).natAbs < i.natAbs := by
  rw [Int.natAbs_tdiv]
  exact Nat.div_lt_self (Int.natAbs_pos.mpr h) one_lt_two

theorem shrinkIntLoopAux_cond_ne_zero {v i : ℤ}
    (h : (v - Int.tdiv i 2).natAbs < v.natAbs) : Int.tdiv i 2 ≠ 0 ∧ i ≠ 0 := by
  constructor
  · intro h0
    rw [h0, sub_zero] at h
    exact lt_irrefl _ h
  · intro h0
    rw [h0, show Int.tdiv (0:ℤ) 2 = 0 from rfl, sub_zero] at h
    exact lt_irrefl _ h

theorem shrinkIntLoopFuel_terminates (v : ℤ) :
    ∀ (fuel : ℕ) (i : ℤ), i.natAbs < fuel →
      shrinkIntLoopFuel v fuel i = some (shrinkIntLoopAux v fuel i) := by
  intro fuel
  induction fuel with
  | zero => intro i h; omega
  | succ n ih =>
    intro i h
    simp only [shrinkIntLoopFuel, shrinkIntLoopAux]
    by_cases hc : (v - Int.tdiv i 2).natAbs < v.natAbs
    · rw [if_pos hc, if_pos hc, ih (Int.tdiv i 2)]
      · simp
      · have hi : i ≠ 0 := (shrinkIntLoopAux_cond_ne_zero hc).2
        have := natAbs_tdiv_two_lt hi
        omega
    · rw [if_neg hc, if_neg hc]

theorem shrinkIntLoopFloorFuel_diverges :
    ∀ fuel : ℕ, shrinkIntLoopFloorFuel (-1) fuel (-1) = none := by
  intro fuel
  induction fuel with
  | zero => rfl
  | succ n ih =>
    have h1 : shrinkIntLoopFloorFuel (-1) (n+1) (-1)
        = (shrinkIntLoopFloorFuel (-1) n (-1)).map fun l => ((-1:ℤ) - Int.fdiv (-1) 2) :: l := by
      simp only [shrinkIntLoopFloorFuel]
      rw [if_pos (by decide), show Int.fdiv (-1:ℤ) 2 = -1 by decide]
    rw [h1, ih]
    rfl

theorem shrinkIntLoopAux_shape (v : ℤ) :
    ∀ (fuel : ℕ) (i : ℤ) (x : ℤ), x ∈ shrinkIntLoopAux v fuel i →
      ∃ j : ℤ, x = v - j ∧ j ≠ 0 ∧ j.natAbs ≤ (Int.tdiv i 2).natAbs := by
  intro fuel
  induction fuel with
  | zero => intro i x h; simp [shrinkIntLoopAux] at h
  | succ n ih =>
    intro i x h
    simp only [shrinkIntLoopAux] at h
    by_cases hc : (v - Int.tdiv i 2).natAbs < v.natAbs
    · rw [if_pos hc, List.mem_cons] at h
      rcases h with rfl | h
      · exact ⟨Int.tdiv i 2, rfl, (shrinkIntLoopAux_cond_ne_zero hc).1, le_rfl⟩
      · rcases ih _ _ h with ⟨j, rfl, hj0, hjle⟩
        refine ⟨j, rfl, hj0, le_trans hjle ?_⟩
        have h2 : Int.tdiv i 2 ≠ 0 := (shrinkIntLoopAux_cond_ne_zero hc).1
        exact le_of_lt (natAbs_tdiv_two_lt h2)
    · rw [if_neg hc] at h
      simp at h

theorem shrinkIntLoopAux_nodup (v : ℤ) :
    ∀ (fuel : ℕ) (i : ℤ), (shrinkIntLoopAux v fuel i).Nodup := by
  intro fuel
  induction fuel with
  | zero => intro i; simp [shrinkIntLoopAux]
  | succ n ih =>
    intro i
    simp only [shrinkIntLoopAux]
    by_cases hc : (v - Int.tdiv i 2).natAbs < v.natAbs
    · rw [if_pos hc, List.nodup_cons]
      refine ⟨?_, ih _⟩
      intro hmem
      rcases shrinkIntLoopAux_shape v _ _ _ hmem with ⟨j, heq, hj0, hjle⟩
      have h2 : Int.tdiv i 2 ≠ 0 := (shrinkIntLoopAux_cond_ne_zero hc).1
      have hlt : j.natAbs < (Int.tdiv i 2).natAbs :=
        lt_of_le_of_lt hjle (natAbs_tdiv_two_lt h2)
      omega
    · rw [if_neg hc]; exact List.nodup_nil

theorem shrinkIntLoop_elem_ne (v x : ℤ) (h : x ∈ shrinkIntLoop v v) :
    x ≠ 0 ∧ x ≠ -v := by
  rcases shrinkIntLoopAux_shape v _ _ _ h with ⟨j, rfl, hj0, hjle⟩
  have hj : j.natAbs ≤ v.natAbs / 2 := by rwa [Int.natAbs_tdiv] at hjle
  constructor
  · intro h0
    have : j = v := by omega
    subst this
    omega
  · intro h0
    have hj2 : j = 2 * v := by omega
    subst hj2
    have habs : (2 * v).natAbs = 2 * v.natAbs := by
      rw [Int.natAbs_mul]
      norm_num
    omega

theorem shrinkInt_nodup (v : ℤ) : (shrinkInt v).Nodup := by
  have hloopnd := shrinkIntLoopAux_nodup v (v.natAbs + 1) v
  have hne := fun x h => shrinkIntLoop_elem_ne v x h
  unfold shrinkInt
  by_cases hv : v < 0
  · have hvne : v ≠ 0 := ne_of_lt hv
    rw [if_pos hv, if_pos hvne]
    have hform : ([-v] ++ [(0:ℤ)] ++ shrinkIntLoop v v) = -v :: 0 :: shrinkIntLoop v v := rfl
    rw [hform, List.nodup_cons, List.nodup_cons]
    refine ⟨?_, ?_, hloopnd⟩
    · rw [List.mem_cons]
      push_neg
      exact ⟨by omega, fun hmem => (hne _ hmem).2 rfl⟩
    · exact fun hmem => (hne _ hmem).1 rfl
  · by_cases hv0 : v = 0
    · subst hv0
      simp [shrinkIntLoop, shrinkIntLoopAux]
    · rw [if_neg hv, if_pos hv0]
      have hform : ([] ++ [(0:ℤ)] ++ shrinkIntLoop v v) = 0 :: shrinkIntLoop v v := rfl
      rw [hform, List.nodup_cons]
      exact ⟨fun hmem => (hne _ hmem).1 rfl, hloopnd⟩

/-! ### Float and bool shrink (src/quickcheck/implementations.py lines 150-157, 189-192)

`shrink_float` yields the negation for negative values, then the integer
truncation `float(int(v))` when that strictly reduces the magnitude;
`shrink_bool` shrinks `True` to `False`.  Python `int()` on a float rounds
toward zero, which on `ℚ` is `pyTrunc`. -/

def pyTrunc (q : ℚ) : ℤ := if q < 0 then ⌈q⌉ else ⌊q⌋

def shrinkFloat (q : ℚ) : List ℚ :=
  (if q < 0 then [-q] else []) ++
  (if |(pyTrunc q : ℚ)| < |q| then [(pyTrunc q : ℚ)] else [])

def shrinkBool (b : Bool) : List Bool := if b then [false] else []

theorem shrinkFloat_nodup (q : ℚ) : (shrinkFloat q).Nodup := by
  unfold shrinkFloat
  by_cases hq : q < 0
  · rw [if_pos hq]
    by_cases ht : |(pyTrunc q : ℚ)| < |q|
    · rw [if_pos ht]
      have h1 : ((pyTrunc q : ℤ) : ℚ) ≤ 0 := by
        unfold pyTrunc
        rw [if_pos hq]
        have hc : ⌈q⌉ ≤ (0:ℤ) := Int.ceil_le.mpr (by exact_mod_cast le_of_lt hq)
        exact_mod_cast hc
      have hne : -q ≠ ((pyTrunc q : ℤ) : ℚ) := by
        intro heq
        rw [← heq] at h1
        linarith
      simp [List.nodup_cons, hne]
    · rw [if_neg ht]
      simp
  · rw [if_neg hq]
    by_cases ht : |(pyTrunc q : ℚ)| < |q|
    · rw [if_pos ht]; simp
    · rw [if_neg ht]; simp

theorem shrinkBool_nodup (b : Bool) : (shrinkBool b).Nodup := by
  cases b <;> simp [shrinkBool]

/-! ### Runtime values and the shrink dispatch

`Value` models the Python runtime values the built-in shrink registrations
dispatch over (src/quickcheck/implementations.py): `int`, `float`, `bool`,
`str` (a list of Unicode code points), `bytes` (a list of byte values),
`list` and `tuple`.

`shrinkValueAux` embeds the dispatched `shrink(value)`:
* int/float/bool use `shrink_int` / `shrink_float` / `shrink_bool`;
* `shrink_str` on a single character shrinks the code point via
  `shrink(ord(v))` and re-encodes each result with `chr` (a one-character
  str); on longer strings it uses `shrink_sequence` with identity factory,
  where each element is a one-character str whose shrink is again its code
  point shrink — inlined here, replacing position `i`;
* `shrink_bytes` uses `shrink_sequence`; elements of a Python bytes are
  ints, so element simplification shrinks the byte as an integer;
* `shrink_list` uses `shrink_sequence`: first the `n` one-element-removed
  copies (`del vc[i]`, i.e. `eraseIdx`), then the round-robin interleave of
  the per-index element-simplification streams (`vc[i] = s`, i.e. `set`);
* `shrink_tuple` (lines 266-271) does NOT reuse `shrink_sequence`: it only
  round-robins the per-position element simplifications, with no removals.

The recursion of `shrink_sequence` into `shrink(v[i])` is fuelled; the
wrapper `shrinkValue` supplies `valueFuel v`, which always suffices
(`shrinkValueAux_stable`), so the wrapped function computes the same list
any larger fuel would. -/

inductive Value where
  | int (n : ℤ)
  | float (q : ℚ)
  | bool (b : Bool)
  | str (cs : List ℕ)
  | bytes (bs : List ℕ)
  | list (vs : List Value)
  | tuple (vs : List Value)

def Value.tag : Value → ℕ
  | .int _ => 0
  | .float _ => 1
  | .bool _ => 2
  | .str _ => 3
  | .bytes _ => 4
  | .list _ => 5
  | .tuple _ => 6

def shrinkValueAux : ℕ → Value → List Value
  | 0, _ => []
  | _+1, Value.int n => (shrinkInt n).map Value.int
  | _+1, Value.float q => (shrinkFloat q).map Value.float
  | _+1, Value.bool b => (shrinkBool b).map Value.bool
  | _+1, Value.str cs =>
      if cs.length = 1 then
        (shrinkInt (Int.ofNat (cs.headD 0))).map fun x => Value.str [x.toNat]
      else
        ((List.range cs.length).map fun i => Value.str (cs.eraseIdx i)) ++
        roundrobin ((List.range cs.length).map fun i =>
          (shrinkInt (Int.ofNat (cs.getD i 0))).map fun x => Value.str (cs.set i x.toNat))
  | _+1, Value.bytes bs =>
      ((List.range bs.length).map fun i => Value.bytes (bs.eraseIdx i)) ++
      roundrobin ((List.range bs.length).map fun i =>
        (shrinkInt (Int.ofNat (bs.getD i 0))).map fun x => Value.bytes (bs.set i x.toNat))
  | fuel+1, Value.list vs =>
      ((List.range vs.length).map fun i => Value.list (vs.eraseIdx i)) ++
      roundrobin ((List.range vs.length).map fun i =>
        (shrinkValueAux fuel (vs.getD i (Value.int 0))).map fun s => Value.list (vs.set i s))
  | fuel+1, Value.tuple vs =>
      roundrobin ((List.range vs.length).map fun i =>
        (shrinkValueAux fuel (vs.getD i (Value.int 0))).map fun s => Value.tuple (vs.set i s))

def valueFuel : Value → ℕ
  | .list vs => (vs.attach.map fun x => valueFuel x.1).sum + 1
  | .tuple vs => (vs.attach.map fun x => valueFuel x.1).sum + 1
  | _ => 1
decreasing_by
  all_goals
    have hlt := List.sizeOf_lt_of_mem x.2
    simp only [Value.list.sizeOf_spec, Value.tuple.sizeOf_spec]
    omega

def shrinkValue (v : Value) : List Value := shrinkValueAux (valueFuel v) v

theorem valueFuel_list_eq (vs : List Value) :
    valueFuel (Value.list vs) = (vs.map valueFuel).sum + 1 := by
  rw [valueFuel.eq_def]
  simp

theorem valueFuel_tuple_eq (vs : List Value) :
    valueFuel (Value.tuple vs) = (vs.map valueFuel).sum + 1 := by
  rw [valueFuel.eq_def]
  simp

theorem valueFuel_int_eq (n : ℤ) : valueFuel (Value.int n) = 1 := by
  rw [valueFuel.eq_def]

theorem valueFuel_float_eq (q : ℚ) : valueFuel (Value.float q) = 1 := by
  rw [valueFuel.eq_def]

theorem valueFuel_bool_eq (b : Bool) : valueFuel (Value.bool b) = 1 := by
  rw [valueFuel.eq_def]

theorem valueFuel_str_eq (cs : List ℕ) : valueFuel (Value.str cs) = 1 := by
  rw [valueFuel.eq_def]

theorem valueFuel_bytes_eq (bs : List ℕ) : valueFuel (Value.bytes bs) = 1 := by
  rw [valueFuel.eq_def]

theorem valueFuel_pos (v : Value) : 1 ≤ valueFuel v := by
  cases v with
  | list vs => rw [valueFuel_list_eq]; omega
  | tuple vs => rw [valueFuel_tuple_eq]; omega
  | int n => rw [valueFuel_int_eq]
  | float q => rw [valueFuel_float_eq]
  | bool b => rw [valueFuel_bool_eq]
  | str cs => rw [valueFuel_str_eq]
  | bytes bs => rw [valueFuel_bytes_eq]

theorem valueFuel_elem_le {e : Value} {vs : List Value} (h : e ∈ vs) :
    valueFuel e ≤ (vs.map valueFuel).sum := by
  have hmem : valueFuel e ∈ vs.map valueFuel := List.mem_map_of_mem valueFuel h
  exact List.single_le_sum (fun x _ => Nat.zero_le x) _ hmem

theorem getD_mem_of_lt {vs : List Value} {i : ℕ} (h : i < vs.length) :
    vs.getD i (Value.int 0) ∈ vs := by
  rw [List.getD_eq_getElem _ _ h]
  exact List.getElem_mem h

theorem shrinkValueAux_stable :
    ∀ (f1 f2 : ℕ) (v : Value), valueFuel v ≤ f1 → valueFuel v ≤ f2 →
      shrinkValueAux f1 v = shrinkValueAux f2 v := by
  intro f1
  induction f1 using Nat.strong_induction_on with
  | _ f1 ih =>
    intro f2 v h1 h2
    have hp := valueFuel_pos v
    obtain ⟨a, rfl⟩ : ∃ a, f1 = a + 1 := ⟨f1 - 1, by omega⟩
    obtain ⟨b, rfl⟩ : ∃ b, f2 = b + 1 := ⟨f2 - 1, by omega⟩
    cases v with
    | int n => rfl
    | float q => rfl
    | bool c => rfl
    | str cs => rfl
    | bytes bs => rfl
    | list vs =>
      rw [valueFuel_list_eq] at h1 h2
      show (_ ++ roundrobin _ : List Value) = _ ++ roundrobin _
      congr 2
      apply List.map_congr_left
      intro i hi
      have hi' : i < vs.length := List.mem_range.mp hi
      have hle := valueFuel_elem_le (getD_mem_of_lt hi')
      congr 1
      exact ih a (by omega) b _ (by omega) (by omega)
    | tuple vs =>
      rw [valueFuel_tuple_eq] at h1 h2
      show (roundrobin _ : List Value) = roundrobin _
      congr 1
      apply List.map_congr_left
      intro i hi
      have hi' : i < vs.length := List.mem_range.mp hi
      have hle := valueFuel_elem_le (getD_mem_of_lt hi')
      congr 1
      exact ih a (by omega) b _ (by omega) (by omega)

theorem shrinkValue_int (n : ℤ) :
    shrinkValue (Value.int n) = (shrinkInt n).map Value.int := by
  show shrinkValueAux (valueFuel (Value.int n)) (Value.int n) = _
  rw [valueFuel_int_eq]
  rfl

theorem shrinkValue_float (q : ℚ) :
    shrinkValue (Value.float q) = (shrinkFloat q).map Value.float := by
  show shrinkValueAux (valueFuel (Value.float q)) (Value.float q) = _
  rw [valueFuel_float_eq]
  rfl

theorem shrinkValue_bool (b : Bool) :
    shrinkValue (Value.bool b) = (shrinkBool b).map Value.bool := by
  show shrinkValueAux (valueFuel (Value.bool b)) (Value.bool b) = _
  rw [valueFuel_bool_eq]
  rfl

theorem shrinkValue_str (cs : List ℕ) :
    shrinkValue (Value.str cs) =
      if cs.length = 1 then
        (shrinkInt (Int.ofNat (cs.headD 0))).map fun x => Value.str [x.toNat]
      else
        ((List.range cs.length).map fun i => Value.str (cs.eraseIdx i)) ++
        roundrobin ((List.range cs.length).map fun i =>
          (shrinkInt (Int.ofNat (cs.getD i 0))).map fun x => Value.str (cs.set i x.toNat)) := by
  show shrinkValueAux (valueFuel (Value.str cs)) (Value.str cs) = _
  rw [valueFuel_str_eq]
  rfl

theorem shrinkValue_bytes (bs : List ℕ) :
    shrinkValue (Value.bytes bs) =
      ((List.range bs.length).map fun i => Value.bytes (bs.eraseIdx i)) ++
      roundrobin ((List.range bs.length).map fun i =>
        (shrinkInt (Int.ofNat (bs.getD i 0))).map fun x => Value.bytes (bs.set i x.toNat)) := by
  show shrinkValueAux (valueFuel (Value.bytes bs)) (Value.bytes bs) = _
  rw [valueFuel_bytes_eq]
  rfl

theorem shrinkValue_list (vs : List Value) :
    shrinkValue (Value.list vs) =
      ((List.range vs.length).map fun i => Value.list (vs.eraseIdx i)) ++
      roundrobin ((List.range vs.length).map fun i =>
        (shrinkValue (vs.getD i (Value.int 0))).map fun s => Value.list (vs.set i s)) := by
  show shrinkValueAux (valueFuel (Value.list vs)) (Value.list vs) = _
  rw [valueFuel_list_eq]
  show (_ ++ roundrobin _ : List Value) = _ ++ roundrobin _
  congr 2
  apply List.map_congr_left
  intro i hi
  have hi' : i < vs.length := List.mem_range.mp hi
  have hle := valueFuel_elem_le (getD_mem_of_lt hi')
  congr 1
  exact shrinkValueAux_stable _ _ _ (by omega) le_rfl

theorem shrinkValue_tuple (vs : List Value) :
    shrinkValue (Value.tuple vs) =
      roundrobin ((List.range vs.length).map fun i =>
        (shrinkValue (vs.getD i (Value.int 0))).map fun s => Value.tuple (vs.set i s)) := by
  show shrinkValueAux (valueFuel (Value.tuple vs)) (Value.tuple vs) = _
  rw [valueFuel_tuple_eq]
  show (roundrobin _ : List Value) = roundrobin _
  congr 1
  apply List.map_congr_left
  intro i hi
  have hi' : i < vs.length := List.mem_range.mp hi
  have hle := valueFuel_elem_le (getD_mem_of_lt hi')
  congr 1
  exact shrinkValueAux_stable _ _ _ (by omega) le_rfl

theorem tag_of_mem_shrinkValueAux :
    ∀ (fuel : ℕ) (v c : Value), c ∈ shrinkValueAux fuel v → c.tag = v.tag := by
  intro fuel v c h
  cases fuel with
  | zero => simp [shrinkValueAux] at h
  | succ n =>
    cases v with
    | int m =>
      simp only [shrinkValueAux] at h
      rcases List.mem_map.mp h with ⟨x, _, rfl⟩; rfl
    | float q =>
      simp only [shrinkValueAux] at h
      rcases List.mem_map.mp h with ⟨x, _, rfl⟩; rfl
    | bool b =>
      simp only [shrinkValueAux] at h
      rcases List.mem_map.mp h with ⟨x, _, rfl⟩; rfl
    | str cs =>
      simp only [shrinkValueAux] at h
      by_cases hl : cs.length = 1
      · rw [if_pos hl] at h
        rcases List.mem_map.mp h with ⟨x, _, rfl⟩; rfl
      · rw [if_neg hl, List.mem_append] at h
        rcases h with h | h
        · rcases List.mem_map.mp h with ⟨i, _, rfl⟩; rfl
        · rcases mem_roundrobin.mp h with ⟨l, hl2, hc⟩
          rcases List.mem_map.mp hl2 with ⟨i, _, rfl⟩
          rcases List.mem_map.mp hc with ⟨x, _, rfl⟩; rfl
    | bytes bs =>
      simp only [shrinkValueAux, List.mem_append] at h
      rcases h with h | h
      · rcases List.mem_map.mp h with ⟨i, _, rfl⟩; rfl
      · rcases mem_roundrobin.mp h with ⟨l, hl2, hc⟩
        rcases List.mem_map.mp hl2 with ⟨i, _, rfl⟩
        rcases List.mem_map.mp hc with ⟨x, _, rfl⟩; rfl
    | list vs =>
      simp only [shrinkValueAux, List.mem_append] at h
      rcases h with h | h
      · rcases List.mem_map.mp h with ⟨i, _, rfl⟩; rfl
      · rcases mem_roundrobin.mp h with ⟨l, hl2, hc⟩
        rcases List.mem_map.mp hl2 with ⟨i, _, rfl⟩
        rcases List.mem_map.mp hc with ⟨s, _, rfl⟩; rfl
    | tuple vs =>
      simp only [shrinkValueAux] at h
      rcases mem_roundrobin.mp h with ⟨l, hl2, hc⟩
      rcases List.mem_map.mp hl2 with ⟨i, _, rfl⟩
      rcases List.mem_map.mp hc with ⟨s, _, rfl⟩; rfl

/-! ### Single-dispatch registry (src/quickcheck/generic.py lines 7-38)

`SingleDispatchGeneric` keeps an ordered list of `(typ, impl, checker)`
entries; `register` inserts at index 0 (`self.implementations.insert(0, ...)`),
so the most recently registered entry is scanned first, and substitutes the
registry-wide default checker when none is supplied (`if not checker`).
`__call__` scans the list, skips an entry when its checker returns a falsy
value or raises (`except Exception: continue`), calls the first matching
implementation, and falls back to the dispatcher with `None` when nothing
matches.  A checker is modelled as `S → K → Except Unit Bool`, where
`Except.error` is a raised exception. -/

structure DispatchEntry (S K I : Type) where
  typ : K
  impl : I
  chk : S → K → Except Unit Bool

structure SingleDispatchGeneric (S K I : Type) where
  checker : S → K → Except Unit Bool
  implementations : List (DispatchEntry S K I)

def SingleDispatchGeneric.register {S K I : Type} (g : SingleDispatchGeneric S K I)
    (typ : K) (fn : I) (checker : Option (S → K → Except Unit Bool)) :
    SingleDispatchGeneric S K I :=
  ⟨g.checker, ⟨typ, fn, checker.getD g.checker⟩ :: g.implementations⟩

def dispatchSelect {S K I : Type} (obj : S) : List (DispatchEntry S K I) → Option I
  | [] => none
  | e :: rest =>
    match e.chk obj e.typ with
    | .ok true => some e.impl
    | .ok false => dispatchSelect obj rest
    | .error _ => dispatchSelect obj rest

def SingleDispatchGeneric.call {S K I R : Type} (g : SingleDispatchGeneric S K I)
    (dispatcher : Option I → S → R) (obj : S) : R :=
  dispatcher (dispatchSelect obj g.implementations) obj

def entryMatches {S K I : Type} (obj : S) (e : DispatchEntry S K I) : Bool :=
  match e.chk obj e.typ with
  | .ok true => true
  | _ => false

theorem dispatchSelect_eq_find {S K I : Type} (obj : S) :
    ∀ es : List (DispatchEntry S K I),
      dispatchSelect obj es = (es.find? (entryMatches obj)).map fun e => e.impl := by
  intro es
  induction es with
  | nil => rfl
  | cons e rest ih =>
    simp only [dispatchSelect, List.find?]
    cases hc : e.chk obj e.typ with
    | ok b =>
      cases b with
      | true => simp [entryMatches, hc]
      | false => simp only [entryMatches, hc]; exact ih
    | error u => simp only [entryMatches, hc]; exact ih

/-! ### Thread-local size context (src/quickcheck/interface.py lines 10-58)

The ambient size lives in one slot per thread (`thread_locals`), modelled as
`Option ℤ` (`none` = attribute absent).  `thread_local(name, val)`:

* with `val = None` it sets nothing, yields the current value, restores
  nothing;
* with an actual value it saves `was_set`/`old_val`, sets the slot, and in
  the `finally` block restores the old value or deletes the attribute —
  on every exit path, including a raised exception.  Since the slot is only
  ever set to an actual size, `Option ℤ` distinguishes exactly the
  `was_set` cases.

`sized(size)` is `thread_local('_quickcheck_arbitrary_size', size)`, and
`arbitrary(typ, size)` runs its implementation inside `with sized(size)`.

`SProg` is a program of nested size scopes: `read` is a nested generation
call observing the ambient size (what an implementation receives when no
explicit size is passed), `sized v body rest` is a `with sized(v):` block
around `body` followed by `rest`, and `fail` raises.  `runS σ p` returns
the final slot state, the list of observed sizes, and whether an exception
escaped (in which case the rest of the program is skipped, but `finally`
blocks of enclosing scopes still run). -/

inductive SProg where
  | skip
  | read (rest : SProg)
  | fail
  | sized (size : Option ℤ) (body : SProg) (rest : SProg)

def runS : Option ℤ → SProg → Option ℤ × List (Option ℤ) × Bool
  | σ, .skip => (σ, [], false)
  | σ, .read rest =>
    let r := runS σ rest
    (r.1, σ :: r.2.1, r.2.2)
  | σ, .fail => (σ, [], true)
  | σ, .sized none body rest =>
    let rb := runS σ body
    if rb.2.2 then (rb.1, rb.2.1, true)
    else
      let rr := runS rb.1 rest
      (rr.1, rb.2.1 ++ rr.2.1, rr.2.2)
  | σ, .sized (some s) body rest =>
    let rb := runS (some s) body
    if rb.2.2 then (σ, rb.2.1, true)
    else
      let rr := runS σ rest
      (rr.1, rb.2.1 ++ rr.2.1, rr.2.2)

theorem runS_preserves : ∀ (p : SProg) (σ : Option ℤ), (runS σ p).1 = σ := by
  intro p
  induction p with
  | skip => intro σ; rfl
  | read rest ih =>
    intro σ
    simp only [runS]
    exact ih σ
  | fail => intro σ; rfl
  | sized v body rest ihb ihr =>
    intro σ
    cases v with
    | none =>
      simp only [runS]
      by_cases hr : (runS σ body).2.2
      · rw [if_pos hr]
        exact ihb σ
      · rw [if_neg hr]
        rw [ihb σ]
        exact ihr σ
    | some s =>
      simp only [runS]
      by_cases hr : (runS (some s) body).2.2
      · rw [if_pos hr]
      · rw [if_neg hr]
        exact ihr σ

def seqS : SProg → SProg → SProg
  | .skip, q => q
  | .read rest, q => .read (seqS rest q)
  | .fail, _ => .fail
  | .sized v body rest, q => .sized v body (seqS rest q)

theorem runS_seqS (q : SProg) :
    ∀ (p : SProg) (σ : Option ℤ), (runS σ p).2.2 = false →
      runS σ (seqS p q) =
        ((runS σ q).1, (runS σ p).2.1 ++ (runS σ q).2.1, (runS σ q).2.2) := by
  intro p
  induction p with
  | skip => intro σ h; simp [seqS, runS]
  | read rest ih =>
    intro σ h
    simp only [runS] at h
    simp only [seqS, runS, ih σ h]
    simp [List.cons_append]
  | fail => intro σ h; simp [runS] at h
  | sized v body rest ihb ihr =>
    intro σ h
    cases v with
    | none =>
      simp only [runS] at h ⊢
      by_cases hb : (runS σ body).2.2
      · rw [if_pos hb] at h; simp at h
      · rw [if_neg hb] at h ⊢
        rw [if_neg hb]
        simp at h
        rw [runS_preserves body σ] at h ⊢
        rw [ihr σ h]
        simp [List.append_assoc]
    | some s =>
      simp only [runS] at h ⊢
      by_cases hb : (runS (some s) body).2.2
      · rw [if_pos hb] at h; simp at h
      · rw [if_neg hb] at h ⊢
        rw [if_neg hb]
        simp at h
        rw [ihr σ h]
        simp [List.append_assoc]

/-! ### Bounded numeric generation (src/quickcheck/implementations.py lines 95-165)

`Float.__init__` records `min`, `max`, `add_sign` and raises `ValueError`
when both bounds are given with `min > max` (`floatMake`).  `Float.arbitrary`
first picks `mult`, `add` and the effective `add_sign` (`floatSetup`,
mirroring the `if self.min is not None ... elif self.max is not None ...`
chain, the random sign flip and the clamp of `mult` to `[-size, size]`),
then loops: draw `dist = distribution()` (take `abs` when `add_sign`),
compute `f = dist * mult + add`, redraw while `f` violates a given bound,
return `f` otherwise (`floatTryOne` / `floatLoop`).  The draws of the
`while True:` rejection loop are passed as an explicit list; `none` means
the loop was still running when the supplied draws ran out.

`Integer.arbitrary` is `int(round(super().arbitrary(size=size)))`; Python 3
`round` rounds half to even (`pyRound`). -/

structure PyFloat where
  min : Option ℚ
  max : Option ℚ
  add_sign : Bool

def floatMake (mn mx : Option ℚ) (add_sign : Bool) : Except String PyFloat :=
  match mn, mx with
  | some a, some b =>
    if a > b then Except.error "specified min is greater than specified max"
    else Except.ok ⟨mn, mx, add_sign⟩
  | _, _ => Except.ok ⟨mn, mx, add_sign⟩

def floatSetup (s : PyFloat) (size : ℚ) (signNeg : Bool) : ℚ × ℚ × Bool :=
  let p : ℚ × ℚ × Bool :=
    match s.min, s.max with
    | some mn, some mx => (mx - mn, mn, false)
    | some mn, none => (size, mn, false)
    | none, some mx => (-size, mx, false)
    | none, none => (size, 0, s.add_sign)
  let m1 := if p.2.2 then (if signNeg then -p.1 else p.1) else p.1
  let m2 := if m1 > size then size else m1
  let m3 := if m2 < -size then -size else m2
  (m3, p.2.1, p.2.2)

def floatTryOne (s : PyFloat) (mult add : ℚ) (asgn : Bool) (d : ℚ) : Option ℚ :=
  let dist := if asgn then |d| else d
  let f := dist * mult + add
  match s.max with
  | some mx =>
    if f > mx then none
    else
      match s.min with
      | some mn => if f < mn then none else some f
      | none => some f
  | none =>
    match s.min with
    | some mn => if f < mn then none else some f
    | none => some f

def floatLoop (s : PyFloat) (mult add : ℚ) (asgn : Bool) : List ℚ → Option ℚ
  | [] => none
  | d :: rest =>
    match floatTryOne s mult add asgn d with
    | some f => some f
    | none => floatLoop s mult add asgn rest

def floatArbitrary (s : PyFloat) (size : ℚ) (signNeg : Bool) (draws : List ℚ) : Option ℚ :=
  let p := floatSetup s size signNeg
  floatLoop s p.1 p.2.1 p.2.2 draws

def pyRound (q : ℚ) : ℤ :=
  let f := ⌊q⌋
  let r := q - f
  if r < 1/2 then f
  else if r > 1/2 then f + 1
  else if f % 2 = 0 then f else f + 1

def integerArbitrary (s : PyFloat) (size : ℚ) (signNeg : Bool) (draws : List ℚ) : Option ℤ :=
  (floatArbitrary s size signNeg draws).map pyRound

theorem floatTryOne_sound {s : PyFloat} {mult add : ℚ} {asgn : Bool} {d f : ℚ}
    (h : floatTryOne s mult add asgn d = some f) :
    (∀ mx, s.max = some mx → f ≤ mx) ∧ (∀ mn, s.min = some mn → mn ≤ f) := by
  unfold floatTryOne at h
  cases hmx : s.max with
  | some mx =>
    rw [hmx] at h
    simp only at h
    by_cases h1 : (if asgn then |d| else d) * mult + add > mx
    · rw [if_pos h1] at h; exact absurd h (by simp)
    · rw [if_neg h1] at h
      cases hmn : s.min with
      | some mn =>
        rw [hmn] at h
        simp only at h
        by_cases h2 : (if asgn then |d| else d) * mult + add < mn
        · rw [if_pos h2] at h; exact absurd h (by simp)
        · rw [if_neg h2] at h
          simp only [Option.some.injEq] at h
          subst h
          exact ⟨fun mx2 hmx2 => by injection hmx2 with he; subst he; linarith,
                 fun mn2 hmn2 => by injection hmn2 with he; subst he; linarith⟩
      | none =>
        rw [hmn] at h
        simp only [Option.some.injEq] at h
        subst h
        exact ⟨fun mx2 hmx2 => by injection hmx2 with he; subst he; linarith,
               fun mn2 hmn2 => by simp at hmn2⟩
  | none =>
    rw [hmx] at h
    simp only at h
    cases hmn : s.min with
    | some mn =>
      rw [hmn] at h
      simp only at h
      by_cases h2 : (if asgn then |d| else d) * mult + add < mn
      · rw [if_pos h2] at h; exact absurd h (by simp)
      · rw [if_neg h2] at h
        simp only [Option.some.injEq] at h
        subst h
        exact ⟨fun mx2 hmx2 => by simp at hmx2,
               fun mn2 hmn2 => by injection hmn2 with he; subst he; linarith⟩
    | none =>
      rw [hmn] at h
      simp only [Option.some.injEq] at h
      subst h
      exact ⟨fun mx2 hmx2 => by simp at hmx2,
             fun mn2 hmn2 => by simp at hmn2⟩

theorem floatLoop_sound {s : PyFloat} {mult add : ℚ} {asgn : Bool} {f : ℚ} :
    ∀ draws : List ℚ, floatLoop s mult add asgn draws = some f →
      (∀ mx, s.max = some mx → f ≤ mx) ∧ (∀ mn, s.min = some mn → mn ≤ f) := by
  intro draws
  induction draws with
  | nil => intro h; exact absurd h (by simp [floatLoop])
  | cons d rest ih =>
    intro h
    simp only [floatLoop] at h
    cases htry : floatTryOne s mult add asgn d with
    | some g =>
      rw [htry] at h
      simp only [Option.some.injEq] at h
      subst h
      exact floatTryOne_sound htry
    | none =>
      rw [htry] at h
      exact ih h

theorem floatArbitrary_sound {s : PyFloat} {size : ℚ} {signNeg : Bool}
    {draws : List ℚ} {f : ℚ} (h : floatArbitrary s size signNeg draws = some f) :
    (∀ mx, s.max = some mx → f ≤ mx) ∧ (∀ mn, s.min = some mn → mn ≤ f) :=
  floatLoop_sound _ h

theorem pyRound_mem_floor_ceil (q : ℚ) : pyRound q = ⌊q⌋ ∨ pyRound q = ⌊q⌋ + 1 := by
  unfold pyRound
  by_cases h1 : q - ⌊q⌋ < 1/2
  · rw [if_pos h1]; exact Or.inl rfl
  · rw [if_neg h1]
    by_cases h2 : q - ⌊q⌋ > 1/2
    · rw [if_pos h2]; exact Or.inr rfl
    · rw [if_neg h2]
      by_cases h3 : (⌊q⌋ : ℤ) % 2 = 0
      · rw [if_pos h3]; exact Or.inl rfl
      · rw [if_neg h3]; exact Or.inr rfl

theorem pyRound_bounds {q : ℚ} {mn mx : ℤ} (hmn : (mn : ℚ) ≤ q) (hmx : q ≤ (mx : ℚ)) :
    mn ≤ pyRound q ∧ pyRound q ≤ mx := by
  have hfl : mn ≤ ⌊q⌋ := Int.le_floor.mpr hmn
  have hcl : ⌈q⌉ ≤ mx := Int.ceil_le.mpr hmx
  rcases pyRound_mem_floor_ceil q with h | h
  · refine ⟨by omega, ?_⟩
    rw [h]
    exact le_trans (Int.floor_le_ceil q) hcl
  · refine ⟨by omega, ?_⟩
    by_cases hint : (⌊q⌋ : ℚ) = q
    · have hr : q - ((⌊q⌋ : ℤ) : ℚ) = 0 := by rw [hint, sub_self]
      have hpr : pyRound q = ⌊q⌋ := by
        show (if q - ((⌊q⌋ : ℤ) : ℚ) < 1/2 then ⌊q⌋
          else if q - ((⌊q⌋ : ℤ) : ℚ) > 1/2 then ⌊q⌋ + 1
          else if (⌊q⌋ : ℤ) % 2 = 0 then ⌊q⌋ else ⌊q⌋ + 1) = ⌊q⌋
        rw [if_pos]
        rw [hr]
        norm_num
      omega
    · have hlt : ((⌊q⌋ : ℤ) : ℚ) < q := lt_of_le_of_ne (Int.floor_le q) hint
      have h1 : ⌈q⌉ ≤ ⌊q⌋ + 1 := Int.ceil_le_floor_add_one q
      have h2 : ((⌊q⌋ : ℤ) : ℚ) < ((⌈q⌉ : ℤ) : ℚ) := lt_of_lt_of_le hlt (Int.le_ceil q)
      have h3 : ⌊q⌋ < ⌈q⌉ := by exact_mod_cast h2
      omega

/-! ### List spec construction (src/quickcheck/implementations.py lines 229-245)

`List.__init__(elspec, lengthmin=0, lengthmax=None)` turns a `None` minimum
into 0, then raises `ValueError` when `lengthmin > lengthmax` (max given),
when `not lengthmin >= 0`, or when `lengthmax` is given and
`not lengthmax >= 0` — in that order, at construction time.
`List.arbitrary` draws the length with
`arbitrary(Integer(min=self.lengthmin, max=self.lengthmax), size=size)`,
so generation constructs an `Integer` (hence a `Float`, `floatMake`) from
the stored, already-validated bounds. -/

structure ListSpec (α : Type) where
  elspec : α
  lengthmin : ℤ
  lengthmax : Option ℤ

def listMake {α : Type} (elspec : α) (lengthmin0 : Option ℤ) (lengthmax : Option ℤ) :
    Except String (ListSpec α) :=
  let lengthmin := lengthmin0.getD 0
  match lengthmax with
  | some mx =>
    if lengthmin > mx then Except.error "length minimum is greater than length maximum"
    else if lengthmin < 0 then Except.error "length minimum is not greater than 0"
    else if mx < 0 then Except.error "length maximum is not greater than 0"
    else Except.ok ⟨elspec, lengthmin, some mx⟩
  | none =>
    if lengthmin < 0 then Except.error "length minimum is not greater than 0"
    else Except.ok ⟨elspec, lengthmin, none⟩

def listArbitraryLen {α : Type} (s : ListSpec α) (size : ℚ) (signNeg : Bool)
    (draws : List ℚ) : Except String (Option ℤ) :=
  match floatMake (some ((s.lengthmin : ℤ) : ℚ)) (s.lengthmax.map fun z => ((z : ℤ) : ℚ)) true with
  | Except.error e => Except.error e
  | Except.ok fs => Except.ok (integerArbitrary fs size signNeg draws)

/-! ### The trial loop (src/quickcheck/checker.py lines 40-84)

Each iteration of `while successes < tries:` generates arguments at
`size = i % max_size` and calls the property; all of that is summarised by
the deterministic outcome stream `res : ℕ → TrialResult` indexed by the
iteration counter `i`:

* `raises` — the call raised; the runner minimizes and re-raises a
  `QuickCheckError` (terminal for the loop, modelled as `propertyFailed`);
* `isNone` — the call returned `None`: fatal `RuntimeError`;
* `ok` — a truthy return: `successes += 1`;
* `discard` — a falsy non-`None` return: `discards += 1`, and if
  `discards / (successes + 1) >= max_discard_ratio` the fatal
  "too many tests discarded" `RuntimeError` is raised at once.

The Python `/` is exact real division on these small ints, so `ℚ` division
is the faithful model; the `while` loop gets fuel. -/

inductive TrialResult where
  | ok
  | discard
  | isNone
  | raises

inductive RunOutcome where
  | passed
  | noneError
  | propertyFailed
  | tooManyDiscards (successes discards : ℕ)

def qcLoop (tries : ℕ) (ratio : ℚ) (res : ℕ → TrialResult) :
    ℕ → ℕ → ℕ → ℕ → Option RunOutcome
  | 0, _, _, _ => none
  | fuel+1, i, successes, discards =>
    if successes < tries then
      match res i with
      | TrialResult.raises => some RunOutcome.propertyFailed
      | TrialResult.isNone => some RunOutcome.noneError
      | TrialResult.ok => qcLoop tries ratio res fuel (i+1) (successes+1) discards
      | TrialResult.discard =>
        if (((discards+1 : ℕ) : ℚ)) / (((successes+1 : ℕ) : ℚ)) ≥ ratio
        then some (RunOutcome.tooManyDiscards successes (discards+1))
        else qcLoop tries ratio res fuel (i+1) successes (discards+1)
    else some RunOutcome.passed

/-! ### The minimizer (src/quickcheck/checker.py lines 11-37)

`_quickcheck_minimize(f, args, kwargs, used, exctype)`: while True, build
for every argument name the stream `(name, x) for x in shrink(used[name])`,
round-robin those streams, and try each candidate by calling `f` with the
candidate substituted into a copy of the kwargs+used map.  A call raising
an exception of the preserved type commits the substitution and restarts
the outer loop; an exception of another type propagates; if the interleaved
stream is exhausted with no hit, the current map is returned.

The used-arguments map is a `List (ℕ × Value)` in insertion order (Python
dict); `updateArg` is `used[name] = v` (replace in place).  The property
function is deterministic: `f : List (ℕ × Value) → Except ℕ Unit` returns
`Except.error e` when the call raises an exception of kind `e` (`except
exctype` is matched by kind equality).  The shrink dispatch is passed in as
`shr` — the engine calls whatever `shrink` resolves to; `shrinkValue` is
the built-in table.  The outer `while True:` gets fuel: `none` means the
fuel ran out with the hill-climb still descending. -/

def updateArg : List (ℕ × Value) → ℕ → Value → List (ℕ × Value)
  | [], _, _ => []
  | p :: rest, n, w => if p.1 = n then (n, w) :: rest else p :: updateArg rest n w

def argCandidates (shr : Value → List Value) (used : List (ℕ × Value)) : List (ℕ × Value) :=
  roundrobin (used.map fun p => (shr p.2).map fun x => (p.1, x))

def tryCandidates (f : List (ℕ × Value) → Except ℕ Unit) (kwargs used : List (ℕ × Value))
    (k : ℕ) : List (ℕ × Value) → Except ℕ (Option (ℕ × Value))
  | [] => Except.ok none
  | c :: rest =>
    match f (kwargs ++ updateArg used c.1 c.2) with
    | Except.error e => if e = k then Except.ok (some c) else Except.error e
    | Except.ok _ => tryCandidates f kwargs used k rest

def minimizeAux (shr : Value → List Value) (f : List (ℕ × Value) → Except ℕ Unit)
    (kwargs : List (ℕ × Value)) (k : ℕ) :
    ℕ → List (ℕ × Value) → Option (Except ℕ (List (ℕ × Value)))
  | 0, _ => none
  | fuel+1, used =>
    match tryCandidates f kwargs used k (argCandidates shr used) with
    | Except.error e => some (Except.error e)
    | Except.ok none => some (Except.ok used)
    | Except.ok (some c) => minimizeAux shr f kwargs k fuel (updateArg used c.1 c.2)

theorem tryCandidates_ok_none {f : List (ℕ × Value) → Except ℕ Unit}
    {kwargs used : List (ℕ × Value)} {k : ℕ} :
    ∀ cs, tryCandidates f kwargs used k cs = Except.ok none →
      ∀ c ∈ cs, f (kwargs ++ updateArg used c.1 c.2) = Except.ok Unit.unit := by
  intro cs
  induction cs with
  | nil => intro h c hc; simp at hc
  | cons c rest ih =>
    intro h c2 hc2
    cases hf : f (kwargs ++ updateArg used c.1 c.2) with
    | error e =>
      simp only [tryCandidates, hf] at h
      by_cases he : e = k
      · rw [if_pos he] at h; simp at h
      · rw [if_neg he] at h; exact absurd h (by simp)
    | ok u =>
      simp only [tryCandidates, hf] at h
      rcases List.mem_cons.mp hc2 with heq | hc2
      · subst heq; cases u; exact hf
      · exact ih h c2 hc2

theorem qcLoop_succ (tries : ℕ) (ratio : ℚ) (res : ℕ → TrialResult)
    (fuel i s d : ℕ) :
    qcLoop tries ratio res (fuel+1) i s d =
      if s < tries then
        match res i with
        | TrialResult.raises => some RunOutcome.propertyFailed
        | TrialResult.isNone => some RunOutcome.noneError
        | TrialResult.ok => qcLoop tries ratio res fuel (i+1) (s+1) d
        | TrialResult.discard =>
          if (((d+1 : ℕ) : ℚ)) / (((s+1 : ℕ) : ℚ)) ≥ ratio
          then some (RunOutcome.tooManyDiscards s (d+1))
          else qcLoop tries ratio res fuel (i+1) s (d+1)
      else some RunOutcome.passed := rfl

theorem qcLoop_all_ok (tries : ℕ) (ratio : ℚ) (res : ℕ → TrialResult)
    (hres : ∀ j, res j = TrialResult.ok) :
    ∀ (k i s d : ℕ), s + k = tries →
      qcLoop tries ratio res (k+1) i s d = some RunOutcome.passed := by
  intro k
  induction k with
  | zero =>
    intro i s d h
    rw [qcLoop_succ, if_neg (by omega)]
  | succ m ih =>
    intro i s d h
    rw [qcLoop_succ, if_pos (show s < tries by omega), hres i]
    exact ih (i+1) (s+1) d (by omega)

theorem qcLoop_all_discard (tries r : ℕ) (res : ℕ → TrialResult)
    (hres : ∀ j, res j = TrialResult.discard) (htries : 1 ≤ tries) :
    ∀ (k i d : ℕ), d + k = r → 1 ≤ k →
      qcLoop tries (r : ℚ) res k i 0 d = some (RunOutcome.tooManyDiscards 0 r) := by
  intro k
  induction k with
  | zero => intro i d h hk; omega
  | succ m ih =>
    intro i d h hk
    rw [qcLoop_succ, if_pos (show (0:ℕ) < tries by omega), hres i]
    show (if (((d+1 : ℕ) : ℚ)) / (((0+1 : ℕ) : ℚ)) ≥ (r : ℚ)
        then some (RunOutcome.tooManyDiscards 0 (d+1))
        else qcLoop tries (r : ℚ) res m (i+1) 0 (d+1))
      = some (RunOutcome.tooManyDiscards 0 r)
    by_cases hm : m = 0
    · subst hm
      have hd : d + 1 = r := by omega
      have hcond : (((d+1 : ℕ) : ℚ)) / (((0+1 : ℕ) : ℚ)) ≥ (r : ℚ) := by
        rw [show ((0+1 : ℕ) : ℚ) = 1 by norm_num, div_one]
        exact_mod_cast le_of_eq hd.symm
      rw [if_pos hcond, hd]
    · have hlt : d + 1 < r := by omega
      have hcond : ¬ ((((d+1 : ℕ) : ℚ)) / (((0+1 : ℕ) : ℚ)) ≥ (r : ℚ)) := by
        rw [show ((0+1 : ℕ) : ℚ) = 1 by norm_num, div_one]
        exact not_le.mpr (by exact_mod_cast hlt)
      rw [if_neg hcond]
      exact ih (i+1) (d+1) (by omega) (by omega)

/-! Concrete shrink dispatch and property used by the minimizer witness:
only integers are shrinkable, and the property fails (with kind 0)
exactly when its single argument is an integer at least 1. -/

def witShr : Value → List Value
  | Value.int n => (shrinkInt n).map Value.int
  | _ => []

def witF : List (ℕ × Value) → Except ℕ Unit
  | [(0, Value.int m)] => if 1 ≤ m then Except.error 0 else Except.ok ()
  | _ => Except.ok ()

/-! ## The claims -/

/-- C1: when the minimizer `_quickcheck_minimize` terminates and returns a
map (the interleaved candidate stream of some pass was exhausted without a
successful reduction), that map is a local minimum: for every argument name
in the returned used-arguments map and for every candidate produced by
shrinking that argument's final value, re-invoking the deterministic
property with that single candidate substituted does not raise a failure of
the preserved kind (indeed the final pass already called it on exactly that
input and it returned normally). -/
theorem quickcheck_minimize_local_minimum
    (shr : Value → List Value) (f : List (ℕ × Value) → Except ℕ Unit)
    (kwargs : List (ℕ × Value)) (k : ℕ) :
    ∀ (fuel : ℕ) (used result : List (ℕ × Value)),
      minimizeAux shr f kwargs k fuel used = some (Except.ok result) →
      ∀ n w, (n, w) ∈ result → ∀ s ∈ shr w,
        f (kwargs ++ updateArg result n s) ≠ Except.error k := by
  intro fuel
  induction fuel with
  | zero => intro used result h; exact absurd h (by simp [minimizeAux])
  | succ m ih =>
    intro used result h
    cases htry : tryCandidates f kwargs used k (argCandidates shr used) with
    | error e =>
      simp only [minimizeAux, htry] at h
      exact absurd h (by simp)
    | ok o =>
      cases o with
      | none =>
        simp only [minimizeAux, htry, Option.some.injEq, Except.ok.injEq] at h
        subst h
        intro n w hmem s hs hcontra
        have hcand : (n, s) ∈ argCandidates shr used := by
          apply mem_roundrobin.mpr
          refine ⟨(shr w).map fun x => (n, x), ?_, List.mem_map_of_mem _ hs⟩
          have hmap := List.mem_map_of_mem
            (fun p : ℕ × Value => (shr p.2).map fun x => (p.1, x)) hmem
          simpa using hmap
        have hok := tryCandidates_ok_none _ htry (n, s) hcand
        rw [hok] at hcontra
        exact absurd hcontra (by simp)
      | some c =>
        simp only [minimizeAux, htry] at h
        exact ih _ _ h

/-- C1 witness: shrinking the map x = 2 under a property that fails (kind 0)
for x ≥ 1 terminates at the local minimum x = 1, and the remaining shrink
candidate 0 of the final value 1 does not re-raise kind 0. -/
theorem quickcheck_minimize_local_minimum_witness :
    witF ([] ++ updateArg [(0, Value.int 1)] 0 (Value.int 0)) ≠ Except.error 0 :=
  quickcheck_minimize_local_minimum witShr witF [] 0 3
    [(0, Value.int 2)] [(0, Value.int 1)] (by rfl)
    0 (Value.int 1) (List.mem_singleton.mpr rfl) (Value.int 0)
    (by rw [show witShr (Value.int 1) = [Value.int 0] from rfl]
        exact List.mem_singleton.mpr rfl)

/-- C5: finiteness of one shrink call.  The only unbounded loop in the
shrink engine is the halving loop of `shrink_int`.  The packaged
halve-toward-zero loop (`math.trunc(i / 2)`, `shrinkIntLoopFuel`)
terminates for every integer input, including every negative one, within
natAbs v + 1 iterations, producing the finite list `shrinkIntLoop v v` —
whereas the monolithic snapshot of the same loop (src/quickcheck.py, which
halves with floor division `i // 2`, `shrinkIntLoopFloorFuel`) never
terminates on input -1: its state reaches the fixpoint `i = -1` and yields
the candidate 0 forever. -/
theorem shrink_int_loop_termination :
    (∀ v : ℤ, shrinkIntLoopFuel v (v.natAbs + 1) v = some (shrinkIntLoop v v))
    ∧ (∀ fuel : ℕ, shrinkIntLoopFloorFuel (-1) fuel (-1) = none) :=
  ⟨fun v => shrinkIntLoopFuel_terminates v _ v (by omega),
   shrinkIntLoopFloorFuel_diverges⟩

/-- C10: every candidate yielded by one call to the shrink dispatch has the
same runtime type (the same `Value` constructor) as the input value. -/
theorem shrink_preserves_runtime_type (v c : Value) (h : c ∈ shrinkValue v) :
    c.tag = v.tag :=
  tag_of_mem_shrinkValueAux _ _ _ h

/-- C10 witness: shrinking the integer -2 yields the integer 2. -/
theorem shrink_preserves_runtime_type_witness :
    (Value.int 2).tag = (Value.int (-2)).tag :=
  shrink_preserves_runtime_type (Value.int (-2)) (Value.int 2)
    (by rw [shrinkValue_int]; exact List.mem_map_of_mem _ (by decide))

/-- C3: registry dispatch is deterministic for a fixed entry list: the
selected implementation is exactly the first entry (scanning
most-recently-registered first, since `register` prepends) whose
compatibility checker returns true; of two registrations for the same key
the second registered wins whenever its checker matches the subject; and an
entry whose checker raises is skipped — never treated as a match and never
fatal. -/
theorem dispatch_first_match_override_error_skip :
    (∀ (S K I : Type) (obj : S) (es : List (DispatchEntry S K I)),
        dispatchSelect obj es = (es.find? (entryMatches obj)).map fun e => e.impl)
    ∧ (∀ (S K I : Type) (g : SingleDispatchGeneric S K I) (t1 t2 : K) (f1 f2 : I)
        (c1 c2 : Option (S → K → Except Unit Bool)) (obj : S),
        (c2.getD g.checker) obj t2 = Except.ok true →
        dispatchSelect obj ((g.register t1 f1 c1).register t2 f2 c2).implementations
          = some f2)
    ∧ (∀ (S K I : Type) (t : K) (f : I) (c : S → K → Except Unit Bool)
        (rest : List (DispatchEntry S K I)) (obj : S) (err : Unit),
        c obj t = Except.error err →
        dispatchSelect obj (⟨t, f, c⟩ :: rest) = dispatchSelect obj rest) := by
  refine ⟨fun S K I obj es => dispatchSelect_eq_find obj es, ?_, ?_⟩
  · intro S K I g t1 t2 f1 f2 c1 c2 obj hc
    show dispatchSelect obj
      (⟨t2, f2, c2.getD ((g.register t1 f1 c1).checker)⟩ ::
        (g.register t1 f1 c1).implementations) = some f2
    simp only [dispatchSelect]
    rw [show (g.register t1 f1 c1).checker = g.checker from rfl, hc]
  · intro S K I t f c rest obj err hc
    simp only [dispatchSelect]
    rw [hc]

/-- C3 witness: a concrete registry over naturals; the later of two
registrations for key 1 is dispatched, and an erroring checker falls
through to the rest. -/
theorem dispatch_first_match_override_error_skip_witness :
    dispatchSelect (0:ℕ) ([] : List (DispatchEntry ℕ ℕ ℕ))
      = ((([] : List (DispatchEntry ℕ ℕ ℕ)).find? (entryMatches 0)).map fun e => e.impl)
    ∧ dispatchSelect (0:ℕ)
        (((⟨fun _ _ => Except.ok true, []⟩ : SingleDispatchGeneric ℕ ℕ ℕ).register 1 10
          none).register 1 20 none).implementations = some 20
    ∧ dispatchSelect (0:ℕ)
        (⟨1, 10, fun _ _ => Except.error ()⟩ :: ([] : List (DispatchEntry ℕ ℕ ℕ)))
      = dispatchSelect (0:ℕ) ([] : List (DispatchEntry ℕ ℕ ℕ)) :=
  ⟨dispatch_first_match_override_error_skip.1 ℕ ℕ ℕ 0 [],
   dispatch_first_match_override_error_skip.2.1 ℕ ℕ ℕ
     ⟨fun _ _ => Except.ok true, []⟩ 1 1 10 20 none none 0 (by rfl),
   dispatch_first_match_override_error_skip.2.2 ℕ ℕ ℕ 1 10
     (fun _ _ => Except.error ()) [] 0 () (by rfl)⟩

/-- C4: the ambient size slot.  First conjunct: every well-bracketed size
program leaves the slot exactly as it found it — `with sized(s):` restores
the prior value (or absence) on every exit path, exceptions included, and
nested scopes restore LIFO (the inner scope restores before the outer
finally runs, which is what makes the invariant inductive).  Second
conjunct: inside a `sized s` scope, a nested generation call that does not
pass an explicit size observes exactly s, after any non-raising prefix p1
of the scope body (p1 may itself open and close nested scopes). -/
theorem size_context_restores_and_propagates :
    (∀ (p : SProg) (σ : Option ℤ), (runS σ p).1 = σ)
    ∧ (∀ (σ : Option ℤ) (s : ℤ) (p1 : SProg), (runS (some s) p1).2.2 = false →
        (runS σ (SProg.sized (some s) (seqS p1 (SProg.read SProg.skip)) SProg.skip)).2.1
          = (runS (some s) p1).2.1 ++ [some s]) := by
  refine ⟨runS_preserves, ?_⟩
  intro σ s p1 h
  have hseq := runS_seqS (SProg.read SProg.skip) p1 (some s) h
  simp [runS] at hseq
  simp [runS, hseq]

/-- C4 witness: from an absent ambient size, a sized-5 scope whose body
first runs a nested sized-7 scope (restored LIFO) and then reads, observes
5, and the slot is absent again afterwards. -/
theorem size_context_restores_and_propagates_witness :
    (runS (some 3) SProg.fail).1 = some 3
    ∧ (runS none (SProg.sized (some 5)
        (seqS (SProg.sized (some 7) SProg.skip SProg.skip) (SProg.read SProg.skip))
        SProg.skip)).2.1
      = (runS (some 5) (SProg.sized (some 7) SProg.skip SProg.skip)).2.1 ++ [some 5] :=
  ⟨size_context_restores_and_propagates.1 SProg.fail (some 3),
   size_context_restores_and_propagates.2 none 5
     (SProg.sized (some 7) SProg.skip SProg.skip) (by rfl)⟩

/-- C6 counterexample: the claim says tuple values share the generic
sequence shrink and so yield their one-element-removed candidates first;
but `shrink_tuple` produces only element-simplified candidates.  Shrinking
the one-element tuple (1,) yields exactly [(0,)] — an element-simplified
candidate with no removal candidate before it, and the removed-candidate
tuple () never occurs at all. -/
theorem tuple_shrink_no_removal_counterexample :
    shrinkValue (Value.tuple [Value.int 1]) = [Value.tuple [Value.int 0]]
    ∧ Value.tuple [] ∉ shrinkValue (Value.tuple [Value.int 1]) := by
  have h1 : shrinkValue (Value.tuple [Value.int 1]) = [Value.tuple [Value.int 0]] := by
    rw [shrinkValue_tuple]
    simp only [show List.range ([Value.int 1] : List Value).length = [0] from rfl,
      List.map_cons, List.map_nil,
      show ([Value.int 1] : List Value).getD 0 (Value.int 0) = Value.int 1 from rfl,
      shrinkValue_int, show shrinkInt 1 = [0] from rfl]
    rfl
  refine ⟨h1, ?_⟩
  rw [h1]
  simp

/-- C6 (amended): for an ordered-sequence (list) value of length n the
shrink stream is exactly the n one-element-removed candidates, one per
index in index order, followed by the round-robin interleave of the
per-index element-simplification streams, so every later candidate is a
single-element simplification; a fixed-arity tuple value instead yields
only element-simplified candidates (round-robin across positions), with no
removal candidates. -/
theorem sequence_shrink_order (vs : List Value) :
    (shrinkValue (Value.list vs)).take vs.length
        = (List.range vs.length).map (fun i => Value.list (vs.eraseIdx i))
    ∧ (shrinkValue (Value.list vs)).drop vs.length
        = roundrobin ((List.range vs.length).map fun i =>
            (shrinkValue (vs.getD i (Value.int 0))).map fun s => Value.list (vs.set i s))
    ∧ (∀ c ∈ (shrinkValue (Value.list vs)).drop vs.length,
        ∃ i s, i < vs.length ∧ s ∈ shrinkValue (vs.getD i (Value.int 0))
          ∧ c = Value.list (vs.set i s))
    ∧ (∀ c ∈ shrinkValue (Value.tuple vs),
        ∃ i s, i < vs.length ∧ s ∈ shrinkValue (vs.getD i (Value.int 0))
          ∧ c = Value.tuple (vs.set i s)) := by
  have hlen : ((List.range vs.length).map fun i => Value.list (vs.eraseIdx i)).length
      = vs.length := by simp
  refine ⟨?_, ?_, ?_, ?_⟩
  · rw [shrinkValue_list]
    exact List.take_left' hlen
  · rw [shrinkValue_list]
    exact List.drop_left' hlen
  · intro c hc
    rw [shrinkValue_list, List.drop_left' hlen] at hc
    rcases mem_roundrobin.mp hc with ⟨l, hl, hcl⟩
    rcases List.mem_map.mp hl with ⟨i, hi, rfl⟩
    rcases List.mem_map.mp hcl with ⟨s, hs, rfl⟩
    exact ⟨i, s, List.mem_range.mp hi, hs, rfl⟩
  · intro c hc
    rw [shrinkValue_tuple] at hc
    rcases mem_roundrobin.mp hc with ⟨l, hl, hcl⟩
    rcases List.mem_map.mp hl with ⟨i, hi, rfl⟩
    rcases List.mem_map.mp hcl with ⟨s, hs, rfl⟩
    exact ⟨i, s, List.mem_range.mp hi, hs, rfl⟩

/-- C6 witness: in shrinking the list [1], the candidate after the removal
prefix, [0], is a single-element simplification at index 0. -/
theorem sequence_shrink_order_witness :
    ∃ i s, i < ([Value.int 1] : List Value).length
      ∧ s ∈ shrinkValue (([Value.int 1] : List Value).getD i (Value.int 0))
      ∧ Value.list [Value.int 0] = Value.list (([Value.int 1] : List Value).set i s) :=
  (sequence_shrink_order [Value.int 1]).2.2.1 (Value.list [Value.int 0]) (by
    have h1 : shrinkValue (Value.list [Value.int 1])
        = [Value.list [], Value.list [Value.int 0]] := by
      rw [shrinkValue_list]
      simp only [show List.range ([Value.int 1] : List Value).length = [0] from rfl,
        List.map_cons, List.map_nil,
        show ([Value.int 1] : List Value).getD 0 (Value.int 0) = Value.int 1 from rfl,
        shrinkValue_int, show shrinkInt 1 = [0] from rfl]
      rfl
    rw [h1]
    simp)

/-- C7 counterexample: one call to shrink on the list [0, 0] yields the
one-element-removed candidate [0] twice, once for each removed index — a
candidate equal to one yielded earlier in the same shrink request. -/
theorem shrink_list_duplicate_counterexample :
    shrinkValue (Value.list [Value.int 0, Value.int 0])
      = [Value.list [Value.int 0], Value.list [Value.int 0]]
    ∧ ¬ (shrinkValue (Value.list [Value.int 0, Value.int 0])).Nodup := by
  have h1 : shrinkValue (Value.list [Value.int 0, Value.int 0])
      = [Value.list [Value.int 0], Value.list [Value.int 0]] := by
    rw [shrinkValue_list]
    simp only [show List.range ([Value.int 0, Value.int 0] : List Value).length
        = [0, 1] from rfl,
      List.map_cons, List.map_nil,
      show ([Value.int 0, Value.int 0] : List Value).getD 0 (Value.int 0)
        = Value.int 0 from rfl,
      show ([Value.int 0, Value.int 0] : List Value).getD 1 (Value.int 0)
        = Value.int 0 from rfl,
      shrinkValue_int, show shrinkInt 0 = [] from rfl]
    rfl
  refine ⟨h1, ?_⟩
  rw [h1]
  simp

/-- C7 (amended): the scalar shrink streams never repeat a candidate within
one call: the integer stream (negation, zero, then strictly
magnitude-decreasing halving steps), the float stream and the boolean
stream are duplicate-free, as are their dispatched forms; sequence shrink
can repeat a candidate when two indices give equal results (see the
counterexample). -/
theorem scalar_shrink_nodup :
    (∀ v : ℤ, (shrinkInt v).Nodup) ∧ (∀ q : ℚ, (shrinkFloat q).Nodup)
    ∧ (∀ b : Bool, (shrinkBool b).Nodup)
    ∧ (∀ n : ℤ, (shrinkValue (Value.int n)).Nodup)
    ∧ (∀ q : ℚ, (shrinkValue (Value.float q)).Nodup)
    ∧ (∀ b : Bool, (shrinkValue (Value.bool b)).Nodup) := by
  have hint : Function.Injective Value.int := fun a b h => by injection h
  have hfloat : Function.Injective Value.float := fun a b h => by injection h
  have hbool : Function.Injective Value.bool := fun a b h => by injection h
  refine ⟨shrinkInt_nodup, shrinkFloat_nodup, shrinkBool_nodup, ?_, ?_, ?_⟩
  · intro n
    rw [shrinkValue_int]
    exact (shrinkInt_nodup n).map hint
  · intro q
    rw [shrinkValue_float]
    exact (shrinkFloat_nodup q).map hfloat
  · intro b
    rw [shrinkValue_bool]
    exact (shrinkBool_nodup b).map hbool

/-- C2 counterexample: Integer(min=0.5, max=0.5) — a registered numeric
descriptor with min ≤ max — generates 0: the rejection loop accepts
f = 0.5 on the first draw, and round(0.5) is 0 under banker's rounding,
strictly below the requested minimum 0.5. -/
theorem integer_fractional_bounds_counterexample :
    integerArbitrary ⟨some (1/2), some (1/2), true⟩ 0 false [0] = some 0
    ∧ ((0 : ℤ) : ℚ) < 1/2 := by
  have hfl : ⌊(1:ℚ)/2⌋ = 0 := by
    rw [Int.floor_eq_iff]
    constructor
    · norm_num
    · norm_num
  have hround : pyRound ((1:ℚ)/2) = 0 := by
    unfold pyRound
    norm_num [hfl]
  have harb : floatArbitrary ⟨some (1/2), some (1/2), true⟩ 0 false [0] = some (1/2) := by
    unfold floatArbitrary floatSetup floatLoop floatTryOne
    norm_num
  constructor
  · show (floatArbitrary ⟨some (1/2), some (1/2), true⟩ 0 false [0]).map pyRound = some 0
    rw [harb]
    simp only [Option.map_some']
    rw [hround]
  · norm_num

/-- C2 (amended): every value returned by the bounded Float generator lies
within its given bounds — for every size (including 0), every draw
sequence, every sign choice: the rejection loop only returns values that
passed both bound checks.  The Integer generator returns the rounding of
such a value, so with whole-number bounds min ≤ v ≤ max also holds for the
rounded result; with fractional bounds rounding can step outside (see the
counterexample). -/
theorem numeric_bounds_within_range :
    (∀ (s : PyFloat) (size : ℚ) (signNeg : Bool) (draws : List ℚ) (f : ℚ),
      floatArbitrary s size signNeg draws = some f →
        (∀ mx, s.max = some mx → f ≤ mx) ∧ (∀ mn, s.min = some mn → mn ≤ f))
    ∧ (∀ (s : PyFloat) (size : ℚ) (signNeg : Bool) (draws : List ℚ) (n : ℤ)
        (mn mx : ℤ), s.min = some (mn : ℚ) → s.max = some (mx : ℚ) →
        integerArbitrary s size signNeg draws = some n → mn ≤ n ∧ n ≤ mx) := by
  constructor
  · exact fun s size sn draws f h => floatArbitrary_sound h
  · intro s size sn draws n mn mx hmn hmx h
    unfold integerArbitrary at h
    cases harb : floatArbitrary s size sn draws with
    | none => rw [harb] at h; exact absurd h (by simp)
    | some f =>
      rw [harb] at h
      simp only [Option.map_some', Option.some.injEq] at h
      subst h
      have hs := floatArbitrary_sound harb
      exact pyRound_bounds (hs.2 _ hmn) (hs.1 _ hmx)

/-- C2 witness: Float(min=0, max=1) at size 1 with draw 0 returns 0, inside
the bounds; Integer(min=0, max=1) likewise returns the integer 0 in
bounds. -/
theorem numeric_bounds_within_range_witness :
    ((∀ mx, (⟨some 0, some 1, true⟩ : PyFloat).max = some mx → (0:ℚ) ≤ mx)
      ∧ (∀ mn, (⟨some 0, some 1, true⟩ : PyFloat).min = some mn → mn ≤ (0:ℚ)))
    ∧ ((0:ℤ) ≤ 0 ∧ (0:ℤ) ≤ 1) := by
  have harb : floatArbitrary ⟨some 0, some 1, true⟩ 1 false [0] = some 0 := by
    unfold floatArbitrary floatSetup floatLoop floatTryOne
    norm_num
  refine ⟨numeric_bounds_within_range.1 ⟨some 0, some 1, true⟩ 1 false [0] 0 harb, ?_⟩
  refine numeric_bounds_within_range.2 ⟨some 0, some 1, true⟩ 1 false [0] 0 0 1
    (by norm_num) (by norm_num) ?_
  show (floatArbitrary ⟨some 0, some 1, true⟩ 1 false [0]).map pyRound = some 0
  rw [harb]
  simp only [Option.map_some']
  rw [show pyRound 0 = 0 from by unfold pyRound; norm_num]

/-- C8: the trial loop runs until `tries` successes are accumulated (an
all-success run finishes after exactly `tries` iterations), and raises the
fatal too-many-discards error at the very discard that makes
discards / (successes + 1) ≥ max_discard_ratio; in particular a property
that always discards, with tries ≥ 1 and an integer ratio r ≥ 1, aborts
after exactly r discards — within max_discard_ratio * 1 discards. -/
theorem trial_loop_discard_behavior :
    (∀ (tries : ℕ) (ratio : ℚ) (res : ℕ → TrialResult) (fuel i s d : ℕ),
      s < tries → res i = TrialResult.discard →
      (((d+1 : ℕ) : ℚ)) / (((s+1 : ℕ) : ℚ)) ≥ ratio →
      qcLoop tries ratio res (fuel+1) i s d
        = some (RunOutcome.tooManyDiscards s (d+1)))
    ∧ (∀ (tries : ℕ) (ratio : ℚ) (res : ℕ → TrialResult),
        (∀ j, res j = TrialResult.ok) → ∀ (i : ℕ),
        qcLoop tries ratio res (tries+1) i 0 0 = some RunOutcome.passed)
    ∧ (∀ (tries r : ℕ) (res : ℕ → TrialResult),
        (∀ j, res j = TrialResult.discard) → 1 ≤ tries → 1 ≤ r →
        qcLoop tries (r : ℚ) res r 0 0 0
          = some (RunOutcome.tooManyDiscards 0 r)) := by
  refine ⟨?_, ?_, ?_⟩
  · intro tries ratio res fuel i s d h1 h2 h3
    rw [qcLoop_succ, if_pos h1, h2]
    show (if (((d+1 : ℕ) : ℚ)) / (((s+1 : ℕ) : ℚ)) ≥ ratio
        then some (RunOutcome.tooManyDiscards s (d+1))
        else qcLoop tries ratio res fuel (i+1) s (d+1))
      = some (RunOutcome.tooManyDiscards s (d+1))
    rw [if_pos h3]
  · intro tries ratio res hres i
    exact qcLoop_all_ok tries ratio res hres tries i 0 0 (by omega)
  · intro tries r res hres h1 h2
    exact qcLoop_all_discard tries r res hres h1 r 0 0 (by omega) h2

/-- C8 witness: with tries = 1 and ratio 1, an always-discarding property
aborts after 1 discard; an always-true property passes after one success;
and a discard at state s = 0, d = 3 with ratio 1 aborts immediately. -/
theorem trial_loop_discard_behavior_witness :
    qcLoop 1 ((1:ℕ) : ℚ) (fun _ => TrialResult.discard) 1 0 0 0
      = some (RunOutcome.tooManyDiscards 0 1)
    ∧ qcLoop 1 (10:ℚ) (fun _ => TrialResult.ok) 2 0 0 0 = some RunOutcome.passed
    ∧ qcLoop 2 (1:ℚ) (fun _ => TrialResult.discard) 1 5 0 3
      = some (RunOutcome.tooManyDiscards 0 4) :=
  ⟨trial_loop_discard_behavior.2.2 1 1 (fun _ => TrialResult.discard)
      (fun _ => rfl) (by norm_num) (by norm_num),
   trial_loop_discard_behavior.2.1 1 10 (fun _ => TrialResult.ok) (fun _ => rfl) 0,
   trial_loop_discard_behavior.1 2 1 (fun _ => TrialResult.discard) 0 5 0 3
      (by norm_num) rfl (by norm_num)⟩

/-- C9: constructing a Float with min > max raises the configuration
ValueError synchronously in the constructor (and construction succeeds
exactly when the bounds are ordered); constructing a List with
lengthmin > lengthmax or a negative length bound raises a configuration
ValueError at construction time; and generation from any successfully
constructed List never raises that error — the Integer spec its arbitrary
builds from the stored validated bounds always constructs successfully
(Float generation itself has no error path at all: `floatArbitrary` returns
a plain optional value). -/
theorem constructor_validation :
    (∀ (a b : ℚ) (asgn : Bool), b < a →
        floatMake (some a) (some b) asgn
          = Except.error "specified min is greater than specified max")
    ∧ (∀ (a b : ℚ) (asgn : Bool), ¬ b < a →
        floatMake (some a) (some b) asgn = Except.ok ⟨some a, some b, asgn⟩)
    ∧ (∀ (α : Type) (elspec : α) (lmo mxo : Option ℤ),
        ((lmo.getD 0) < 0
          ∨ (∃ mx, mxo = some mx ∧ ((lmo.getD 0) > mx ∨ mx < 0))) →
        ∃ e, listMake elspec lmo mxo = Except.error e)
    ∧ (∀ (α : Type) (elspec : α) (lmo mxo : Option ℤ) (s : ListSpec α),
        listMake elspec lmo mxo = Except.ok s →
        ∀ (size : ℚ) (sn : Bool) (draws : List ℚ),
          ∃ r, listArbitraryLen s size sn draws = Except.ok r) := by
  refine ⟨?_, ?_, ?_, ?_⟩
  · intro a b asgn h
    show (if a > b then Except.error "specified min is greater than specified max"
        else Except.ok (⟨some a, some b, asgn⟩ : PyFloat)) = _
    rw [if_pos (show a > b from h)]
  · intro a b asgn h
    show (if a > b then Except.error "specified min is greater than specified max"
        else Except.ok (⟨some a, some b, asgn⟩ : PyFloat)) = _
    rw [if_neg (show ¬ a > b from h)]
  · intro α elspec lmo mxo hviol
    unfold listMake
    cases mxo with
    | none =>
      simp only
      rcases hviol with h | ⟨mx, hmx, h⟩
      · exact ⟨_, by rw [if_pos h]⟩
      · exact absurd hmx (by simp)
    | some mx =>
      simp only
      by_cases h1 : lmo.getD 0 > mx
      · exact ⟨_, by rw [if_pos h1]⟩
      · by_cases h2 : lmo.getD 0 < 0
        · exact ⟨_, by rw [if_neg h1, if_pos h2]⟩
        · have h3 : mx < 0 := by
            rcases hviol with h | ⟨mx2, hmx2, h⟩
            · omega
            · injection hmx2 with he
              subst he
              rcases h with h | h
              · omega
              · exact h
          exact ⟨_, by rw [if_neg h1, if_neg h2, if_pos h3]⟩
  · intro α elspec lmo mxo s hok size sn draws
    unfold listMake at hok
    cases mxo with
    | none =>
      simp only at hok
      by_cases h2 : lmo.getD 0 < 0
      · rw [if_pos h2] at hok
        exact absurd hok (by simp)
      · rw [if_neg h2] at hok
        simp only [Except.ok.injEq] at hok
        subst hok
        refine ⟨integerArbitrary ⟨some ((lmo.getD 0 : ℤ) : ℚ), none, true⟩ size sn draws, ?_⟩
        unfold listArbitraryLen
        rfl
    | some mx =>
      simp only at hok
      by_cases h1 : lmo.getD 0 > mx
      · rw [if_pos h1] at hok
        exact absurd hok (by simp)
      · rw [if_neg h1] at hok
        by_cases h2 : lmo.getD 0 < 0
        · rw [if_pos h2] at hok
          exact absurd hok (by simp)
        · rw [if_neg h2] at hok
          by_cases h3 : mx < 0
          · rw [if_pos h3] at hok
            exact absurd hok (by simp)
          · rw [if_neg h3] at hok
            simp only [Except.ok.injEq] at hok
            subst hok
            refine ⟨integerArbitrary ⟨some ((lmo.getD 0 : ℤ) : ℚ),
              some ((mx : ℤ) : ℚ), true⟩ size sn draws, ?_⟩
            have hcond : ¬ (((lmo.getD 0 : ℤ) : ℚ) > ((mx : ℤ) : ℚ)) := by
              rw [gt_iff_lt, not_lt]
              exact_mod_cast (by omega : lmo.getD 0 ≤ mx)
            show (match (if ((lmo.getD 0 : ℤ) : ℚ) > ((mx : ℤ) : ℚ)
                then Except.error "specified min is greater than specified max"
                else Except.ok (⟨some ((lmo.getD 0 : ℤ) : ℚ),
                  some ((mx : ℤ) : ℚ), true⟩ : PyFloat)) with
              | Except.error e => (Except.error e : Except String (Option ℤ))
              | Except.ok fs => Except.ok (integerArbitrary fs size sn draws)) = _
            rw [if_neg hcond]

/-- C9 witness: Float(min=1, max=0) errors at construction; List with
lengthmin = -1 errors at construction; List(lengthmin=0, lengthmax=2)
constructs, and its length-spec Integer construction during generation
succeeds. -/
theorem constructor_validation_witness :
    floatMake (some 1) (some 0) true
      = Except.error "specified min is greater than specified max"
    ∧ (∃ e, listMake () (some (-1)) none = Except.error e)
    ∧ (∃ r, listArbitraryLen (⟨(), 0, some 2⟩ : ListSpec Unit) 1 false []
        = Except.ok r) :=
  ⟨constructor_validation.1 1 0 true (by norm_num),
   constructor_validation.2.2.1 Unit () (some (-1)) none (Or.inl (by norm_num)),
   constructor_validation.2.2.2 Unit () (some 0) (some 2) ⟨(), 0, some 2⟩ (by rfl)
     1 false []⟩
